import Mathlib

set_option maxRecDepth 100000

/-!
Verification development for the indexing and retrieval pipeline of an
incremental semantic-index plugin (chunking, chunk cache, worker message
handling, batch vectorization, similarity retrieval).

Strings of the source language (JavaScript/TypeScript) are modelled as
`List Char`; `String.prototype.length` and all offsets are modelled by
`List.length` over those character lists.  Fallible operations are modelled
with `Except`; the process-wide mutable chunk cache is modelled by explicit
state passing over an insertion-ordered association list (the semantics of a
JS `Map`).  The external sentence-splitter library and the SHA-256 digest are
not part of the sources; functions depending on them are parameterised by a
splitter function (producing the library's sentence nodes) and by a digest
function.
-/

/-- Maximum chunk size in characters (appConstants.ts, `MAX_CHUNK_SIZE`). -/
def MAX_CHUNK_SIZE : Nat := 1000

/-- Maximum sentence length in characters (appConstants.ts, `MAX_SENTENCE_CHARS`). -/
def MAX_SENTENCE_CHARS : Nat := 100

/-- Minimum sentence-segment length in characters (appConstants.ts, `MIN_SENTENCE_CHARS`). -/
def MIN_SENTENCE_CHARS : Nat := 5

/-- Maximum number of chunk-cache entries (`MarkdownChunker.MAX_CACHE_SIZE`). -/
def MAX_CACHE_SIZE : Nat := 100

/-- Chunk-cache time-to-live in milliseconds (`MarkdownChunker.CACHE_TTL_MS`). -/
def CACHE_TTL_MS : Nat := 5 * 60 * 1000

/-- The JavaScript whitespace class `\s` (also the set trimmed by
`String.prototype.trim`/`trimStart`/`trimEnd`): space, tab, line feed,
vertical tab, form feed, carriage return, and the Unicode space separators
plus NBSP, BOM and the line/paragraph separators. -/
def jsWs (c : Char) : Bool :=
  c = ' ' || c = '\t' || c = '\n' || c = '\r' ||
  c.toNat = 0x0b || c.toNat = 0x0c || c.toNat = 0xa0 || c.toNat = 0x1680 ||
  (0x2000 ≤ c.toNat && c.toNat ≤ 0x200a) ||
  c.toNat = 0x2028 || c.toNat = 0x2029 || c.toNat = 0x202f ||
  c.toNat = 0x205f || c.toNat = 0x3000 || c.toNat = 0xfeff

/-- The character class `[\r\n]` of the frontmatter pattern. -/
def crlfChar (c : Char) : Bool := c = '\r' || c = '\n'

/-- Model of JS `s.trimStart()`. -/
def trimStartL (s : List Char) : List Char := s.dropWhile jsWs

/-- Model of JS `s.trimEnd()`. -/
def trimEndL (s : List Char) : List Char := (s.reverse.dropWhile jsWs).reverse

/-- Model of JS `s.trim()`. -/
def trimL (s : List Char) : List Char := trimEndL (trimStartL s)

/-- The number of leading whitespace characters of `s`
(`s.length - s.trimStart().length` in the sources). -/
def leadingWsCount (s : List Char) : Nat := s.length - (trimStartL s).length

/-- The sources compute `trimmedLeading`/`trimmedTrailing` counts and then
take `raw.slice(trimmedLeading, trimmedTrailing > 0 ? -trimmedTrailing :
undefined)`; that slice is exactly `raw` with leading and trailing
whitespace removed, i.e. `trimL raw` composed from the two count-based
slices. -/
def trimSlice (raw : List Char) : List Char :=
  let trimmedLeading := raw.length - (trimStartL raw).length
  let trimmedTrailing := raw.length - (trimEndL raw).length
  (raw.drop trimmedLeading).take (raw.length - trimmedTrailing - trimmedLeading)

/-- Length of the maximal run of characters satisfying `p` at the head of
the list (used to bound the greedy character-class stars of the regex
models). -/
def runLength (p : Char → Bool) : List Char → Nat
  | [] => 0
  | c :: cs => if p c then runLength p cs + 1 else 0

/- Frontmatter pattern, `MarkdownChunker.removeFrontmatter`:
`/^---\s*[\r\n]+([\s\S]*?)[\r\n]+---\s*[\r\n]+/`, modelled by a faithful
hand compilation into backtracking continuation-passing combinators.
Continuations receive the remaining (unconsumed) suffix of the subject. -/

/-- Matches a single literal character and passes the rest to `k`. -/
def litM (c : Char) (k : List Char → Option (List Char)) : List Char → Option (List Char)
  | [] => none
  | x :: xs => if x = c then k xs else none

/-- Backtracking driver for a greedy character-class star: try consuming
`n` characters first, then fewer, as a backtracking regex engine does. -/
def tryShrink (k : List Char → Option (List Char)) (s : List Char) : Nat → Option (List Char)
  | 0 => k s
  | n + 1 => (k (s.drop (n + 1))).orElse (fun _ => tryShrink k s n)

/-- Greedy star over a character class (`\s*`, and the star part of `+`). -/
def starG (p : Char → Bool) (k : List Char → Option (List Char)) (s : List Char) :
    Option (List Char) :=
  tryShrink k s (runLength p s)

/-- Greedy plus over a character class (`[\r\n]+`): one mandatory character
followed by a greedy star. -/
def plusG (p : Char → Bool) (k : List Char → Option (List Char)) : List Char → Option (List Char)
  | [] => none
  | x :: xs => if p x then starG p k xs else none

/-- Backtracking driver for the lazy any-star `[\s\S]*?`: try consuming
nothing first, then grow one character at a time. -/
def tryGrow (k : List Char → Option (List Char)) (s : List Char) : Nat → Option (List Char)
  | 0 => k s
  | n + 1 =>
    (k s).orElse (fun _ =>
      match s with
      | [] => none
      | _ :: xs => tryGrow k xs n)

/-- Lazy star over any character, bounded by the remaining input length. -/
def starLazyAny (k : List Char → Option (List Char)) (s : List Char) : Option (List Char) :=
  tryGrow k s s.length

/-- Anchored match of the full frontmatter pattern against `s`; returns the
remaining suffix after the match (`some`) or `none` when the pattern does
not match at the start of the document. -/
def frontmatterMatch (s : List Char) : Option (List Char) :=
  litM '-' (litM '-' (litM '-' (starG jsWs (plusG crlfChar (starLazyAny
    (plusG crlfChar (litM '-' (litM '-' (litM '-' (starG jsWs
      (plusG crlfChar some)))))))))) ) s

/-- Model of `MarkdownChunker.removeFrontmatter`: if the anchored frontmatter pattern
matches, drop the matched prefix and report its length; otherwise return the
text unchanged with length `0`.  Returns `(processedText, frontmatterLength)`. -/
def removeFrontmatter (text : List Char) : List Char × Nat :=
  match frontmatterMatch text with
  | some rest => (rest, text.length - rest.length)
  | none => (text, 0)

/-- The character class `[^\s\)>\]]` of the URL pattern. -/
def urlBodyChar (c : Char) : Bool := !(jsWs c || c = ')' || c = '>' || c = ']')

/-- Here `startsWith pat s` is true when `pat` is an initial segment of `s`
(used for the literal `http://` / `https://` alternative of the URL
pattern). -/
def startsWith : List Char → List Char → Bool
  | [], _ => true
  | _ :: _, [] => false
  | p :: ps, c :: cs => p = c && startsWith ps cs

/-- Length of the match of `/https?:\/\/[^\s\)>\]]+/` at the head of `s`,
if any: the scheme literal followed by at least one body character, the body
taken greedily (nothing follows it in the pattern, so no backtracking is
observable). -/
def urlMatchLen (s : List Char) : Option Nat :=
  if startsWith ("https://".toList) s then
    let n := runLength urlBodyChar (s.drop 8)
    if 0 < n then some (8 + n) else none
  else if startsWith ("http://".toList) s then
    let n := runLength urlBodyChar (s.drop 7)
    if 0 < n then some (7 + n) else none
  else none

/-- Scanner of `MarkdownChunker.removeUrls`: `skip` counts characters still
inside the current match, which the replacement blanks with spaces; at
`skip = 0` the scanner looks for the next match at the current position. -/
def removeUrlsGo : Nat → List Char → List Char
  | _, [] => []
  | skip + 1, _ :: cs => ' ' :: removeUrlsGo skip cs
  | 0, c :: cs =>
    match urlMatchLen (c :: cs) with
    | some n => ' ' :: removeUrlsGo (n - 1) cs
    | none => c :: removeUrlsGo 0 cs

/-- Model of `MarkdownChunker.removeUrls`: global replacement of every URL match by
an equal-length run of spaces, scanning left to right and resuming after
each match, exactly as `String.prototype.replace` with a global regex. -/
def removeUrls (s : List Char) : List Char := removeUrlsGo 0 s

/-- A sentence-like span with exact character offsets into the processed
text (`SentenceWithOffset` in TextChunker.ts). -/
structure SentenceWithOffset where
  text : List Char
  startOffset : Nat
  endOffset : Nat
deriving Repr, DecidableEq

/-- The preferred split characters of `MarkdownChunker.isPreferredSplitCharacter`:
whitespace or one of the fixed sentence punctuation characters. -/
def PREFERRED_SPLIT_CHARS : List Char := "。、，．,.!?！？；：".toList

/-- Model of `MarkdownChunker.isPreferredSplitCharacter` on a present character (the
out-of-range `charAt` case, which yields the empty string and is rejected,
is handled at the call site). -/
def isPreferredSplitCharacter (c : Char) : Bool :=
  jsWs c || PREFERRED_SPLIT_CHARS.contains c

/-- The countdown loop of `MarkdownChunker.findSplitIndex`: `j` counts the
remaining iterations, the current index being `cursor + j`.  Indices closer
than `MIN_SENTENCE_CHARS` to the cursor are skipped; the first index whose
preceding character is a preferred split character is returned. -/
def findSplitIndexGo (text : List Char) (cursor : Nat) : Nat → Option Nat
  | 0 => none
  | j + 1 =>
    let i := cursor + j + 1
    if i - cursor < MIN_SENTENCE_CHARS then findSplitIndexGo text cursor j
    else
      match text.get? (i - 1) with
      | some ch =>
        if isPreferredSplitCharacter ch then some i else findSplitIndexGo text cursor j
      | none => findSplitIndexGo text cursor j

/-- Model of `MarkdownChunker.findSplitIndex`: walk backward from `preferredEnd`
looking for a preferred boundary at least `MIN_SENTENCE_CHARS` past the
cursor; if none is found, force `max (cursor + MIN_SENTENCE_CHARS) preferredEnd`. -/
def findSplitIndex (text : List Char) (cursor preferredEnd : Nat) : Nat :=
  match findSplitIndexGo text cursor (preferredEnd - cursor) with
  | some i => i
  | none => max (cursor + MIN_SENTENCE_CHARS) preferredEnd

/-- The `segmentEnd` computation of one iteration of
`MarkdownChunker.splitSentenceByMaxLength`: cap at `MAX_SENTENCE_CHARS`,
look for a preferred boundary when not at the end of the sentence, and
force an advance of at least `MIN_SENTENCE_CHARS`. -/
def nextSegmentEnd (sentenceText : List Char) (cursor : Nat) : Nat :=
  let segmentEnd0 := min (cursor + MAX_SENTENCE_CHARS) sentenceText.length
  let segmentEnd1 :=
    if segmentEnd0 < sentenceText.length then findSplitIndex sentenceText cursor segmentEnd0
    else segmentEnd0
  max segmentEnd1 (cursor + MIN_SENTENCE_CHARS)

/-- The `while` loop of `MarkdownChunker.splitSentenceByMaxLength`, as a
fuel-indexed recursion (the loop advances the cursor by at least one per
iteration, so any fuel of at least `sentenceText.length - cursor` computes
the loop exactly; see `splitSentenceGo_fuel`): slice the raw segment, trim
it, emit it when nonempty with offsets found from the trimmed leading
count, and continue at `segmentEnd`. -/
def splitSentenceGo (sentenceText : List Char) (baseStartOffset : Nat) :
    Nat → Nat → List SentenceWithOffset
  | _, 0 => []
  | cursor, fuel + 1 =>
    if cursor < sentenceText.length then
      let segmentEnd := nextSegmentEnd sentenceText cursor
      let segmentRaw := (sentenceText.drop cursor).take (segmentEnd - cursor)
      let trimmedLeading := segmentRaw.length - (trimStartL segmentRaw).length
      let segmentText := trimSlice segmentRaw
      (if 0 < segmentText.length then
        [⟨segmentText, baseStartOffset + cursor + trimmedLeading,
          baseStartOffset + cursor + trimmedLeading + segmentText.length⟩]
       else []) ++ splitSentenceGo sentenceText baseStartOffset segmentEnd fuel
    else []

/-- Model of `MarkdownChunker.splitSentenceByMaxLength` starting at cursor `0`. -/
def splitSentenceByMaxLength (sentenceText : List Char) (baseStartOffset : Nat) :
    List SentenceWithOffset :=
  splitSentenceGo sentenceText baseStartOffset 0 sentenceText.length

/-- The loop advances by at least `MIN_SENTENCE_CHARS ≥ 1` per iteration, so
any two sufficient fuels give the same result: the fuel encoding is exact. -/
theorem splitSentenceGo_fuel (sentenceText : List Char) (baseStartOffset : Nat) :
    ∀ fuel₁ fuel₂ cursor, sentenceText.length - cursor ≤ fuel₁ →
      sentenceText.length - cursor ≤ fuel₂ →
      splitSentenceGo sentenceText baseStartOffset cursor fuel₁
        = splitSentenceGo sentenceText baseStartOffset cursor fuel₂ := by
  intro fuel₁
  induction fuel₁ with
  | zero =>
    intro fuel₂ cursor h1 h2
    have hge : sentenceText.length ≤ cursor := by omega
    cases fuel₂ with
    | zero => rfl
    | succ m =>
      simp only [splitSentenceGo, if_neg (by omega : ¬ cursor < sentenceText.length)]
  | succ n ih =>
    intro fuel₂ cursor h1 h2
    cases fuel₂ with
    | zero =>
      have hge : sentenceText.length ≤ cursor := by omega
      simp only [splitSentenceGo, if_neg (by omega : ¬ cursor < sentenceText.length)]
    | succ m =>
      by_cases hc : cursor < sentenceText.length
      · have hadvance : cursor + MIN_SENTENCE_CHARS ≤ nextSegmentEnd sentenceText cursor :=
          le_max_right _ _
        have hmin : (5 : Nat) = MIN_SENTENCE_CHARS := rfl
        simp only [splitSentenceGo, if_pos hc]
        rw [ih m (nextSegmentEnd sentenceText cursor) (by omega) (by omega)]
      · simp only [splitSentenceGo, if_neg hc]

/-- One output node of the external `sentence-splitter` library, reduced to
the fields the sources inspect: whether it is a `Sentence` node and its
`range` (absent models both a missing range and a malformed one). -/
structure SplitterNode where
  isSentenceNode : Bool
  range : Option (Nat × Nat)
deriving Repr, DecidableEq

/-- The body of the `for` loop of `MarkdownChunker.splitIntoSentences` for a
single node: skip non-sentence nodes, malformed or empty ranges, slice and
trim the raw sentence, skip it when blank, and subdivide it when longer
than `MAX_SENTENCE_CHARS`. -/
def sentencesOfNode (text : List Char) (node : SplitterNode) : List SentenceWithOffset :=
  if !node.isSentenceNode then []
  else
    match node.range with
    | none => []
    | some (rangeStart, rangeEnd) =>
      if rangeEnd ≤ rangeStart then []
      else
        let rawSentence := (text.drop rangeStart).take (rangeEnd - rangeStart)
        let trimmedLeading := rawSentence.length - (trimStartL rawSentence).length
        let trimmedSentence := trimSlice rawSentence
        if trimmedSentence = [] then []
        else
          let baseStartOffset := rangeStart + trimmedLeading
          if MAX_SENTENCE_CHARS < trimmedSentence.length then
            splitSentenceByMaxLength trimmedSentence baseStartOffset
          else
            [⟨trimmedSentence, baseStartOffset, baseStartOffset + trimmedSentence.length⟩]

/-- Model of `MarkdownChunker.splitIntoSentences`, parameterised by the node list the
external splitter returned for `text`. -/
def splitIntoSentences (nodes : List SplitterNode) (text : List Char) :
    List SentenceWithOffset :=
  nodes.foldr (fun node acc => sentencesOfNode text node ++ acc) []

/-- A sentence splitter: the external library, abstracted as a function
from the processed text to its node list. -/
abbrev Splitter := List Char → List SplitterNode

/-- A chunk (`Chunk` in chunking/types.ts).  Offsets are `Int` because the
sources use `-1` as the offset-less sentinel.  `contributingSegmentIds` is
always created as `[]` by the chunker; the optional field is modelled as a
plain list. -/
structure Chunk where
  text : List Char
  originalOffsetStart : Int
  originalOffsetEnd : Int
  contributingSegmentIds : List (List Char)
deriving Repr, DecidableEq, Inhabited

/-- The per-chunk deep copy the cache performs on both store and hit
(`{text, originalOffsetStart, originalOffsetEnd, contributingSegmentIds: [...]}`). -/
def copyChunk (c : Chunk) : Chunk :=
  ⟨c.text, c.originalOffsetStart, c.originalOffsetEnd, c.contributingSegmentIds⟩

/-- The greedy packing loop of `MarkdownChunker.chunkMarkdown` (lines
179–233): `currentChunk` is the accumulating text, `cs`/`ce` the pending
chunk offsets (`-1` when unset).  Oversized sentences flush the accumulator
and are emitted verbatim; otherwise sentences are appended joined by a
single space while the total stays within `MAX_CHUNK_SIZE`, flushing when
the next sentence would overflow. -/
def assembleChunks (frontmatterLength : Nat) :
    List SentenceWithOffset → List Char → Int → Int → List Chunk
  | [], currentChunk, cs, ce =>
    if currentChunk.isEmpty then [] else [⟨currentChunk, cs, ce, []⟩]
  | sentence :: rest, currentChunk, cs, ce =>
    let sentenceStart : Int := (frontmatterLength : Int) + sentence.startOffset
    let sentenceEnd : Int := (frontmatterLength : Int) + sentence.endOffset
    if MAX_CHUNK_SIZE < sentence.text.length then
      (if currentChunk.isEmpty then [] else [⟨currentChunk, cs, ce, []⟩]) ++
        ⟨sentence.text, sentenceStart, sentenceEnd, []⟩ ::
          assembleChunks frontmatterLength rest [] (-1) (-1)
    else
      let potential := currentChunk ++ (if currentChunk.isEmpty then [] else [' ']) ++ sentence.text
      if potential.length ≤ MAX_CHUNK_SIZE then
        assembleChunks frontmatterLength rest potential
          (if cs = -1 then sentenceStart else cs) sentenceEnd
      else
        (if currentChunk.isEmpty then [] else [⟨currentChunk, cs, ce, []⟩]) ++
          assembleChunks frontmatterLength rest sentence.text sentenceStart sentenceEnd

/-- The chunk computation of `MarkdownChunker.chunkMarkdown` on a cache miss
(the part independent of the cache): strip frontmatter, blank URLs, return
no chunks for blank text, otherwise segment and pack. -/
def chunkMarkdownPure (split : Splitter) (noteContent : List Char) : List Chunk :=
  let fm := removeFrontmatter noteContent
  let textWithoutUrls := removeUrls fm.1
  if trimL textWithoutUrls = [] then []
  else
    assembleChunks fm.2 (splitIntoSentences (split textWithoutUrls) textWithoutUrls)
      [] (-1) (-1)

/-- A chunk-cache entry (`CacheEntry` in TextChunker.ts): the stored chunk
list and the store timestamp (`Date.now()` milliseconds). -/
structure CacheEntry where
  chunks : List Chunk
  timestamp : Nat
deriving Repr, DecidableEq

/-- The static `MarkdownChunker.cache`, a JS `Map` keyed by the content
digest: modelled as an insertion-ordered association list, which is exactly
the iteration order `Map.entries()` exposes. -/
abbrev ChunkCache := List (List Char × CacheEntry)

/-- Model of JS `Map.get`. -/
def cacheGet (key : List Char) (m : ChunkCache) : Option CacheEntry :=
  (m.find? (fun p => p.1 = key)).map (·.2)

/-- Model of JS `Map.set`: replace in place when the key is present (keeping its
insertion position), append otherwise. -/
def cacheSet (key : List Char) (v : CacheEntry) (m : ChunkCache) : ChunkCache :=
  if m.any (fun p => p.1 = key) then
    m.map (fun p => if p.1 = key then (key, v) else p)
  else m ++ [(key, v)]

/-- Model of JS `Map.delete`: remove the entry with the given key (the first match;
keys are unique in any state reachable through `cacheSet`). -/
def cacheDeleteKey (m : ChunkCache) (key : List Char) : ChunkCache :=
  m.eraseP (fun p => p.1 = key)

/-- First phase of `MarkdownChunker.cleanupCache`: collect the keys of every
entry older than the time-to-live, then delete them. -/
def cleanupExpired (now : Nat) (m : ChunkCache) : ChunkCache :=
  let entriesToDelete := (m.filter (fun p => CACHE_TTL_MS < now - p.2.timestamp)).map (·.1)
  entriesToDelete.foldl cacheDeleteKey m

/-- Second phase of `MarkdownChunker.cleanupCache`: when the cache still
exceeds `MAX_CACHE_SIZE`, stably sort the entries by ascending timestamp
(the JS comparator `a[1].timestamp - b[1].timestamp`) and delete the first
`size - MAX_CACHE_SIZE` keys. -/
def cleanupBySize (m : ChunkCache) : ChunkCache :=
  if MAX_CACHE_SIZE < m.length then
    let sortedEntries := m.mergeSort (fun a b => a.2.timestamp ≤ b.2.timestamp)
    let deleteCount := m.length - MAX_CACHE_SIZE
    ((sortedEntries.take deleteCount).map (·.1)).foldl cacheDeleteKey m
  else m

/-- Model of `MarkdownChunker.cleanupCache`: expiry removal followed by size-bound
eviction. -/
def cleanupCache (now : Nat) (m : ChunkCache) : ChunkCache :=
  cleanupBySize (cleanupExpired now m)

/-- The cache-miss path of `MarkdownChunker.chunkMarkdown` (lines 162–250):
compute the chunks, return them early for blank text, otherwise store a
deep copy under the content digest with the current timestamp and run the
cleanup. -/
def chunkMarkdownMiss (split : Splitter) (contentHash noteContent : List Char)
    (now : Nat) (cache : ChunkCache) : List Chunk × ChunkCache :=
  let fm := removeFrontmatter noteContent
  let textWithoutUrls := removeUrls fm.1
  if trimL textWithoutUrls = [] then ([], cache)
  else
    let chunks :=
      assembleChunks fm.2 (splitIntoSentences (split textWithoutUrls) textWithoutUrls)
        [] (-1) (-1)
    (chunks, cleanupCache now (cacheSet contentHash ⟨chunks.map copyChunk, now⟩ cache))

/-- Model of `MarkdownChunker.chunkMarkdown` as a state transformer over the cache,
parameterised by the splitter and the content digest (`computeHash`); `now`
is the `Date.now()` reading of the call.  A hit younger than the
time-to-live returns a deep copy of the stored chunks; anything else takes
the miss path. -/
def chunkMarkdown (split : Splitter) (computeHash : List Char → List Char)
    (noteContent : List Char) (now : Nat) (cache : ChunkCache) :
    List Chunk × ChunkCache :=
  let contentHash := computeHash noteContent
  match cacheGet contentHash cache with
  | some cachedEntry =>
    if now - cachedEntry.timestamp ≤ CACHE_TTL_MS then
      (cachedEntry.chunks.map copyChunk, cache)
    else chunkMarkdownMiss split contentHash noteContent now cache
  | none => chunkMarkdownMiss split contentHash noteContent now cache

/-- The externally visible chunk record (`ChunkInfo`/`ChunkMetadata` in
chunking/types.ts), sans the `createdAt : Date` wall-clock field, which no
verified property reads. -/
structure ChunkInfo where
  chunk : List Char
  filePath : List Char
  startPosition : Int
  endPosition : Int
deriving Repr, DecidableEq

/-- Model of `TextChunker.extractTitleFromPath`: the last path component (split on
`/` or `\`), with the regex `^(.*)\.[^.]+$` stripping a final non-empty
extension after the last dot when one exists. -/
def extractTitleFromPath (filePath : Option (List Char)) : List Char :=
  match filePath with
  | none => []
  | some path =>
    let fileName := (path.reverse.takeWhile (fun c => c ≠ '/' && c ≠ '\\')).reverse
    if fileName = [] then []
    else
      match fileName.reverse.findIdx? (fun c => c = '.') with
      | some j => if 1 ≤ j then fileName.take (fileName.length - 1 - j) else fileName
      | none => fileName

/-- Model of `TextChunker.chunkText`, with the markdown chunk computation given by
`chunkMarkdownPure` (its value; cache coherence is proved separately): blank
content and chunk-less content fall back to a title-only chunk with `-1`
offsets, and the file title plus `": "` is prepended to the first chunk's
text. -/
def chunkText (split : Splitter) (noteContent : List Char)
    (filePath : Option (List Char)) : List ChunkInfo :=
  let fileName := extractTitleFromPath filePath
  if trimL noteContent = [] then
    if fileName = [] then []
    else [⟨fileName, filePath.getD [], -1, -1⟩]
  else
    let chunksFromMarkdown := chunkMarkdownPure split noteContent
    if chunksFromMarkdown.length = 0 then
      if fileName = [] then []
      else [⟨fileName, filePath.getD [], -1, -1⟩]
    else
      chunksFromMarkdown.mapIdx (fun index chunk =>
        ⟨if index = 0 && !fileName.isEmpty then fileName ++ ':' :: ' ' :: chunk.text
          else chunk.text,
         filePath.getD [], chunk.originalOffsetStart, chunk.originalOffsetEnd⟩)

/-- A request message of the worker wire contract
(`WorkerRequest`): `{id, type, payload}`; the skeleton handler never reads
the payload, so it is not part of the model. -/
structure WorkerRequest where
  id : List Char
  reqType : List Char
deriving Repr, DecidableEq

/-- Response payload shapes posted by the worker skeleton. -/
inductive WorkerPayload where
  | boolP (b : Bool)
  | strP (s : List Char)
  | vecStoreP (success : Bool) (processedCount : Nat) (errors : List (List Char))
  | searchP (results : List (List Char))
  | rebuildP (success : Bool) (message : List Char)
deriving Repr, DecidableEq

/-- A message posted by the worker: either a log/status message (posted by
`postLogMessage`, carrying no `id`) or a `WorkerResponse` `{id, type,
payload}` in reply to a request. -/
inductive WorkerOutMessage where
  | statusMsg (level : List Char) (message : List Char)
  | response (id : List Char) (respType : List Char) (payload : WorkerPayload)
deriving Repr, DecidableEq

/-- The worker `initialize()` function: on repeat calls it logs and reports
success; otherwise it logs, performs the (dummy) initialization and reports
success.  Returns `(initResult, isInitialized afterwards, logs)`. -/
def initWorker (isInitialized : Bool) : Bool × Bool × List WorkerOutMessage :=
  if isInitialized then
    (true, true, [.statusMsg "info".toList "IntegratedWorker is already initialized.".toList])
  else
    (true, true,
      [.statusMsg "info".toList "Initializing IntegratedWorker...".toList,
       .statusMsg "info".toList "IntegratedWorker initialization completed.".toList])

/-- The `switch` of `worker.onmessage`, inside the `try`: each arm may throw
(`Except.error`, the `Worker not initialized` guard) or produce the new
initialization state and the posted messages. -/
def handleSwitch (isInitialized : Bool) (request : WorkerRequest) :
    Except (List Char) (Bool × List WorkerOutMessage) :=
  let notInit : List Char := "Worker not initialized. Call initialize first.".toList
  if request.reqType = "initialize".toList then
    let r := initWorker isInitialized
    .ok (r.2.1, r.2.2 ++ [.response request.id "initialized".toList (.boolP r.1)])
  else if request.reqType = "vectorizeAndStore".toList then
    if !isInitialized then .error notInit
    else .ok (isInitialized,
      [.statusMsg "info".toList "vectorizeAndStore request received (not yet implemented)".toList,
       .response request.id "vectorizeAndStoreResult".toList
         (.vecStoreP false 0 ["Not yet implemented".toList])])
  else if request.reqType = "search".toList then
    if !isInitialized then .error notInit
    else .ok (isInitialized,
      [.statusMsg "info".toList "search request received (not yet implemented)".toList,
       .response request.id "searchResult".toList (.searchP [])])
  else if request.reqType = "rebuildDb".toList then
    if !isInitialized then .error notInit
    else .ok (isInitialized,
      [.statusMsg "info".toList "rebuildDb request received (not yet implemented)".toList,
       .response request.id "rebuildDbResult".toList
         (.rebuildP false "Not yet implemented".toList)])
  else if request.reqType = "testSimilarity".toList then
    if !isInitialized then .error notInit
    else .ok (isInitialized,
      [.statusMsg "info".toList "testSimilarity request received (not yet implemented)".toList,
       .response request.id "testSimilarityResult".toList
         (.strP "Test not yet implemented".toList)])
  else if request.reqType = "closeDb".toList then
    if !isInitialized then .error notInit
    else .ok (isInitialized,
      [.statusMsg "info".toList "closeDb request received (not yet implemented)".toList,
       .response request.id "dbClosed".toList (.boolP true)])
  else
    .ok (isInitialized,
      [.statusMsg "warn".toList "Unknown message type:".toList,
       .response request.id "error".toList
         (.strP ("Unknown message type: ".toList ++ request.reqType))])

/-- Model of `worker.onmessage`: run the switch under the `try`; the `catch` posts an
error log followed by an `error`-typed response that carries the request's
`id`.  Returns the initialization state after the message and the posted
messages, in order. -/
def handleWorkerMessage (isInitialized : Bool) (request : WorkerRequest) :
    Bool × List WorkerOutMessage :=
  match handleSwitch isInitialized request with
  | .ok r => r
  | .error msg =>
    (isInitialized,
      [.statusMsg "error".toList ("Error processing message".toList ++ request.reqType),
       .response request.id "error".toList
         (.strP ("Error processing ".toList ++ request.reqType ++ ": ".toList ++ msg))])

/-- A vault file as `VectorizationService.vectorizeAllNotes` sees it: its
path and the outcome of `vault.cachedRead` (which may reject). -/
structure VaultFile where
  path : List Char
  content : Except (List Char) (List Char)
deriving Repr

/-- A record accumulated into `allChunksToProcess`
(`{filePath, chunkOffsetStart, chunkOffsetEnd, text}`). -/
structure BatchChunk where
  filePath : List Char
  chunkOffsetStart : Int
  chunkOffsetEnd : Int
  text : List Char
deriving Repr, DecidableEq

/-- The body of the `try` block of the per-file loop of
`VectorizationService.vectorizeAllNotes`: read the file, skip blank
content, chunk it (the chunker itself may throw — its failures are what the
`catch` isolates), skip chunk-less files, otherwise build the batch
records. -/
def processFileForVectorization
    (chunker : List Char → Except (List Char) (List ChunkInfo))
    (file : VaultFile) : Except (List Char) (List BatchChunk) := do
  let content ← file.content
  if trimL content = [] then pure []
  else
    let chunkInfos ← chunker content
    if chunkInfos.length = 0 then pure []
    else
      pure (chunkInfos.map (fun c =>
        ⟨file.path, c.startPosition, c.endPosition, c.chunk⟩))

/-- The per-file loop of `vectorizeAllNotes`: each file is processed inside
its own `try`/`catch`; a failure is logged and contributes nothing, and the
loop continues with the next file. -/
def collectAllChunks (chunker : List Char → Except (List Char) (List ChunkInfo)) :
    List VaultFile → List BatchChunk
  | [] => []
  | file :: rest =>
    (match processFileForVectorization chunker file with
      | .ok recs => recs
      | .error _ => []) ++ collectAllChunks chunker rest

/-- Model of `VectorizationService.vectorizeAllNotes`: accumulate the batch over all
files, then issue a single `vectorizeAndStoreChunks` call when the batch is
nonempty; returns `totalVectorsProcessed` (the worker's `result.count`, or
`0` when there was nothing to store). -/
def vectorizeAllNotes (chunker : List Char → Except (List Char) (List ChunkInfo))
    (vectorizeAndStoreChunks : List BatchChunk → Nat)
    (files : List VaultFile) : Nat :=
  let allChunksToProcess := collectAllChunks chunker files
  if 0 < allChunksToProcess.length then vectorizeAndStoreChunks allChunksToProcess
  else 0

/-- A similarity hit (`SimilarityResultItem` in storage/types.ts); the
`distance` score is opaque to the retrieval layer and modelled as an
integer. -/
structure SimilarityResultItem where
  itemId : Nat
  file_path : List Char
  chunk_offset_start : Int
  chunk_offset_end : Int
  distance : Int
deriving Repr, DecidableEq

/-- A call issued through the worker proxy by
`NoteVectorService.findSimilarChunks` (`searchSimilarByVector` arguments). -/
structure SimilarSearchCall where
  vector : List Int
  limit : Nat
  excludeFilePaths : Option (List (List Char))
deriving Repr, DecidableEq

/-- Model of `NoteVectorService.findSimilarChunks`, instrumented with the list of
calls it issues through the worker proxy: a missing or empty vector returns
`[]` with no call; otherwise one `searchSimilarByVector` call is issued,
with the exclusion option present only for a nonempty exclusion list, and
an error from the proxy is logged and rethrown. -/
def findSimilarChunks
    (searchSimilarByVector :
      List Int → Nat → Option (List (List Char)) →
        Except (List Char) (List SimilarityResultItem))
    (noteVector : Option (List Int)) (limit : Nat)
    (excludeFilePaths : List (List Char)) :
    List SimilarSearchCall × Except (List Char) (List SimilarityResultItem) :=
  match noteVector with
  | none => ([], .ok [])
  | some v =>
    if v.length = 0 then ([], .ok [])
    else
      let opts := if 0 < excludeFilePaths.length then some excludeFilePaths else none
      ([⟨v, limit, opts⟩], searchSimilarByVector v limit opts)

/-- A list of whitespace characters trims to nothing. -/
theorem trimL_eq_nil_of_all_ws (s : List Char) (h : ∀ c ∈ s, jsWs c = true) :
    trimL s = [] := by
  have h1 : trimStartL s = [] := by
    simp only [trimStartL, List.dropWhile_eq_nil_iff]
    exact h
  simp [trimL, h1, trimEndL]

/-- C6.  Every document whose text after preprocessing (frontmatter
stripping and URL blanking) consists only of whitespace characters — in
particular the empty document — produces zero chunks from the markdown
chunker. -/
theorem blank_document_zero_chunks (split : Splitter) (noteContent : List Char)
    (hblank : ∀ c ∈ removeUrls (removeFrontmatter noteContent).1, jsWs c = true) :
    chunkMarkdownPure split noteContent = [] := by
  have hnil : trimL (removeUrls (removeFrontmatter noteContent).1) = [] :=
    trimL_eq_nil_of_all_ws _ hblank
  simp only [chunkMarkdownPure, hnil]
  simp

/-- Witness for `blank_document_zero_chunks` at a concrete whitespace-only
document. -/
theorem blank_document_zero_chunks_witness :
    chunkMarkdownPure (fun _ => []) "  \n ".toList = [] :=
  blank_document_zero_chunks (fun _ => []) "  \n ".toList (by decide)

/-- C5.  Every `WorkerResponse` the worker posts while handling a request —
success responses of the paired result type as well as error responses,
from any initialization state — carries exactly the `id` of that request. -/
theorem worker_response_id_matches (isInitialized : Bool) (request : WorkerRequest)
    (respId respType : List Char) (payload : WorkerPayload)
    (hmem : WorkerOutMessage.response respId respType payload
      ∈ (handleWorkerMessage isInitialized request).2) :
    respId = request.id := by
  unfold handleWorkerMessage handleSwitch initWorker at hmem
  split_ifs at hmem <;> simp_all

/-- Witness for `worker_response_id_matches`: the uninitialized worker
answers a `search` request with an error response whose id is the request
id. -/
theorem worker_response_id_matches_witness :
    ("r1".toList : List Char) = (WorkerRequest.mk "r1".toList "search".toList).id :=
  worker_response_id_matches false ⟨"r1".toList, "search".toList⟩
    "r1".toList "error".toList
    (.strP ("Error processing ".toList ++ "search".toList ++ ": ".toList ++
      "Worker not initialized. Call initialize first.".toList))
    (by decide)

/-- C9.  `findSimilarChunks` with a missing or empty document vector
returns the empty result immediately and issues no call through the worker
proxy, for every limit and every exclusion list. -/
theorem find_similar_empty_vector_no_call
    (searchSimilarByVector :
      List Int → Nat → Option (List (List Char)) →
        Except (List Char) (List SimilarityResultItem))
    (limit : Nat) (excludeFilePaths : List (List Char))
    (noteVector : Option (List Int))
    (hempty : noteVector = none ∨ noteVector = some []) :
    findSimilarChunks searchSimilarByVector noteVector limit excludeFilePaths
      = ([], .ok []) := by
  rcases hempty with h | h <;> subst h <;> simp [findSimilarChunks]

/-- Witness for `find_similar_empty_vector_no_call` at a concrete proxy and
an absent vector. -/
theorem find_similar_empty_vector_no_call_witness :
    findSimilarChunks (fun _ _ _ => .ok []) none 5 ["a.md".toList]
      = ([], .ok []) :=
  find_similar_empty_vector_no_call (fun _ _ _ => .ok []) 5 ["a.md".toList] none
    (Or.inl rfl)

/-- The batch accumulated by the per-file loop distributes over list
concatenation: files are processed independently. -/
theorem collectAllChunks_append
    (chunker : List Char → Except (List Char) (List ChunkInfo))
    (l₁ l₂ : List VaultFile) :
    collectAllChunks chunker (l₁ ++ l₂)
      = collectAllChunks chunker l₁ ++ collectAllChunks chunker l₂ := by
  induction l₁ with
  | nil => simp [collectAllChunks]
  | cons f fs ih => simp [collectAllChunks, ih]

/-- C8.  If reading or chunking one document throws during a
multi-document indexing run, that document contributes nothing while every
other document is still processed and its chunks are still in the final
batch: the batch over `pre ++ [file] ++ post` equals the batch over
`pre ++ post`, and the run's result record is the one computed from that
batch. -/
theorem vectorize_all_notes_error_isolation
    (chunker : List Char → Except (List Char) (List ChunkInfo))
    (vectorizeAndStoreChunks : List BatchChunk → Nat)
    (pre post : List VaultFile) (file : VaultFile) (err : List Char)
    (hfail : processFileForVectorization chunker file = .error err) :
    collectAllChunks chunker (pre ++ file :: post)
      = collectAllChunks chunker pre ++ collectAllChunks chunker post
    ∧ vectorizeAllNotes chunker vectorizeAndStoreChunks (pre ++ file :: post)
        = vectorizeAllNotes chunker vectorizeAndStoreChunks (pre ++ post) := by
  have hbatch : collectAllChunks chunker (pre ++ file :: post)
      = collectAllChunks chunker pre ++ collectAllChunks chunker post := by
    rw [collectAllChunks_append]
    simp [collectAllChunks, hfail, collectAllChunks_append]
  refine ⟨hbatch, ?_⟩
  simp only [vectorizeAllNotes, hbatch, collectAllChunks_append]

/-- Witness for `vectorize_all_notes_error_isolation`: a run over one
healthy file and one whose read rejects. -/
theorem vectorize_all_notes_error_isolation_witness :
    collectAllChunks (fun _ => .ok []) ([⟨"a.md".toList, .ok "x".toList⟩] ++
        ⟨"b.md".toList, .error "EACCES".toList⟩ :: [])
      = collectAllChunks (fun _ => .ok []) [⟨"a.md".toList, .ok "x".toList⟩]
        ++ collectAllChunks (fun _ => .ok []) []
    ∧ vectorizeAllNotes (fun _ => .ok []) List.length
        ([⟨"a.md".toList, .ok "x".toList⟩] ++ ⟨"b.md".toList, .error "EACCES".toList⟩ :: [])
        = vectorizeAllNotes (fun _ => .ok []) List.length
            ([⟨"a.md".toList, .ok "x".toList⟩] ++ []) :=
  vectorize_all_notes_error_isolation (fun _ => .ok []) List.length
    [⟨"a.md".toList, .ok "x".toList⟩] [] ⟨"b.md".toList, .error "EACCES".toList⟩
    "EACCES".toList rfl

/-- Joining span texts by a single space, as the accumulating
`currentChunk + " " + sentence.text` of the packing loop does. -/
def joinSpace : List (List Char) → List Char
  | [] => []
  | [t] => t
  | t :: rest => t ++ ' ' :: joinSpace rest

/-- Appending one more text to a nonempty join inserts exactly one space. -/
theorem joinSpace_append_single (xs : List (List Char)) (y : List Char) (hxs : xs ≠ []) :
    joinSpace (xs ++ [y]) = joinSpace xs ++ ' ' :: y := by
  induction xs with
  | nil => exact absurd rfl hxs
  | cons a as ih =>
    cases as with
    | nil => rfl
    | cons b bs =>
      show a ++ ' ' :: joinSpace ((b :: bs) ++ [y])
        = (a ++ ' ' :: joinSpace (b :: bs)) ++ ' ' :: y
      rw [ih (by simp)]
      simp

/-- The shape the specification ascribes to an emitted chunk: its text is a
nonempty run of consecutive sentence spans joined by single spaces, and its
length is within `MAX_CHUNK_SIZE` unless the run is a single oversized
span emitted verbatim. -/
def ChunkFromRun (sents : List SentenceWithOffset) (c : Chunk) : Prop :=
  ∃ pre run post, sents = pre ++ run ++ post ∧ run ≠ [] ∧
    c.text = joinSpace (run.map SentenceWithOffset.text) ∧
    (c.text.length ≤ MAX_CHUNK_SIZE ∨
      ∃ s, run = [s] ∧ MAX_CHUNK_SIZE < s.text.length)

/-- Soundness of the packing loop: relative to an accumulator that is
itself the join of a run of already consumed spans within the bound, every
emitted chunk is a bounded consecutive-run join or a verbatim oversized
span. -/
theorem assembleChunks_sound (fmLen : Nat) :
    ∀ (sents pre : List SentenceWithOffset) (cur : List Char) (cs ce : Int),
      (cur = [] ∨ ∃ pre₀ curRun, pre = pre₀ ++ curRun ∧ curRun ≠ [] ∧
        cur = joinSpace (curRun.map SentenceWithOffset.text) ∧
        cur.length ≤ MAX_CHUNK_SIZE) →
      ∀ c ∈ assembleChunks fmLen sents cur cs ce,
        ChunkFromRun (pre ++ sents) c := by
  intro sents
  induction sents with
  | nil =>
    intro pre cur cs ce hcur c hc
    simp only [assembleChunks] at hc
    by_cases hemp : cur.isEmpty
    · simp [hemp] at hc
    · rw [if_neg hemp] at hc
      simp only [List.mem_singleton] at hc
      subst hc
      rcases hcur with h | ⟨pre₀, curRun, hpre, hne, hjoin, hlen⟩
      · subst h; simp at hemp
      · exact ⟨pre₀, curRun, [], by simp [hpre], hne, hjoin, Or.inl hlen⟩
  | cons sent rest ih =>
    intro pre cur cs ce hcur c hc
    simp only [assembleChunks] at hc
    have hlist : pre ++ sent :: rest = (pre ++ [sent]) ++ rest := by simp
    by_cases hover : MAX_CHUNK_SIZE < sent.text.length
    · rw [if_pos hover, List.mem_append] at hc
      rcases hc with hflush | hc
      · by_cases hemp : cur.isEmpty
        · simp [hemp] at hflush
        · rw [if_neg hemp] at hflush
          simp only [List.mem_singleton] at hflush
          subst hflush
          rcases hcur with h | ⟨pre₀, curRun, hpre, hne, hjoin, hlen⟩
          · subst h; simp at hemp
          · exact ⟨pre₀, curRun, sent :: rest, by simp [hpre], hne, hjoin, Or.inl hlen⟩
      · rw [List.mem_cons] at hc
        rcases hc with hcev | hrec
        · subst hcev
          exact ⟨pre, [sent], rest, by simp, by simp, rfl, Or.inr ⟨sent, rfl, hover⟩⟩
        · have h := ih (pre ++ [sent]) [] (-1) (-1) (Or.inl rfl) c hrec
          rw [hlist]
          exact h
    · rw [if_neg hover] at hc
      by_cases hfit :
          (cur ++ (if cur.isEmpty then [] else [' ']) ++ sent.text).length ≤ MAX_CHUNK_SIZE
      · rw [if_pos hfit] at hc
        rw [hlist]
        refine ih (pre ++ [sent]) _ _ _ ?_ c hc
        by_cases hemp : cur.isEmpty
        · have hcur0 : cur = [] := by simpa using hemp
          subst hcur0
          by_cases hst : sent.text = []
          · exact Or.inl (by simp [hst])
          · refine Or.inr ⟨pre, [sent], rfl, by simp, by simp [joinSpace], ?_⟩
            simpa using hfit
        · rcases hcur with h | ⟨pre₀, curRun, hpre, hne, hjoin, hlen⟩
          · subst h; simp at hemp
          · refine Or.inr ⟨pre₀, curRun ++ [sent], by simp [hpre], by simp, ?_, ?_⟩
            · rw [List.map_append, List.map_singleton,
                joinSpace_append_single _ _ (by simpa using hne), ← hjoin]
              simp [hemp]
            · simpa [hemp] using hfit
      · rw [if_neg hfit, List.mem_append] at hc
        rcases hc with hflush | hrec
        · by_cases hemp : cur.isEmpty
          · simp [hemp] at hflush
          · rw [if_neg hemp] at hflush
            simp only [List.mem_singleton] at hflush
            subst hflush
            rcases hcur with h | ⟨pre₀, curRun, hpre, hne, hjoin, hlen⟩
            · subst h; simp at hemp
            · exact ⟨pre₀, curRun, sent :: rest, by simp [hpre], hne, hjoin, Or.inl hlen⟩
        · rw [hlist]
          refine ih (pre ++ [sent]) _ _ _ ?_ c hrec
          by_cases hst : sent.text = []
          · exact Or.inl hst
          · exact Or.inr ⟨pre, [sent], rfl, by simp, by simp [joinSpace],
              le_of_not_lt hover⟩


/-- Model validation: the frontmatter matcher strips a concrete fenced
block and reports its exact length. -/
theorem removeFrontmatter_model_check :
    removeFrontmatter "---\nt: x\n---\nHello".toList
      = ("Hello".toList, 13) := by decide

/-- Model validation: URL blanking replaces a concrete URL by an
equal-length run of spaces without shifting surrounding text. -/
theorem removeUrls_model_check :
    removeUrls "a http://b.c d".toList = "a            d".toList := by decide

/-- Model validation: trimming removes exactly the surrounding whitespace. -/
theorem trimL_model_check : trimL "  ab ".toList = "ab".toList := by decide

/-- C1.  Every chunk the chunk assembler emits is a nonempty run of
consecutive sentence spans joined by single spaces; its text length is at
most `MAX_CHUNK_SIZE` unless it is a single oversized sentence span emitted
verbatim. -/
theorem chunkMarkdown_chunk_length_bound (split : Splitter) (noteContent : List Char)
    (c : Chunk) (hc : c ∈ chunkMarkdownPure split noteContent) :
    ChunkFromRun
      (splitIntoSentences (split (removeUrls (removeFrontmatter noteContent).1))
        (removeUrls (removeFrontmatter noteContent).1)) c := by
  simp only [chunkMarkdownPure] at hc
  by_cases hb : trimL (removeUrls (removeFrontmatter noteContent).1) = []
  · simp [hb] at hc
  · rw [if_neg hb] at hc
    exact assembleChunks_sound _ _ [] [] (-1) (-1) (Or.inl rfl) c hc

/-- A splitter stub returning a single sentence node covering `[0, 6)`,
used to instantiate witnesses at concrete inputs. -/
def oneSentenceSplit : Splitter := fun _ => [⟨true, some (0, 6)⟩]

/-- Witness for `chunkMarkdown_chunk_length_bound` at a concrete document
and splitter output. -/
theorem chunkMarkdown_chunk_length_bound_witness :
    ChunkFromRun
      (splitIntoSentences
        (oneSentenceSplit (removeUrls (removeFrontmatter "Hello.".toList).1))
        (removeUrls (removeFrontmatter "Hello.".toList).1))
      ⟨"Hello.".toList, 0, 6, []⟩ :=
  chunkMarkdown_chunk_length_bound oneSentenceSplit "Hello.".toList
    ⟨"Hello.".toList, 0, 6, []⟩ (by decide)

/-- A continuation-passing matcher is suffix-sound when every successful
result is a suffix of the subject it was given. -/
def KSuffixSound (k : List Char → Option (List Char)) : Prop :=
  ∀ s r, k s = some r → r <:+ s

/-- The trivial continuation is suffix-sound. -/
theorem someK_sound : KSuffixSound some := by
  intro s r h
  cases h
  exact List.suffix_refl s

/-- Literal matching preserves suffix soundness. -/
theorem litM_sound (c : Char) (k : List Char → Option (List Char))
    (hk : KSuffixSound k) : KSuffixSound (litM c k) := by
  intro s r h
  cases s with
  | nil => simp [litM] at h
  | cons x xs =>
    simp only [litM] at h
    by_cases hx : x = c
    · rw [if_pos hx] at h
      exact (hk xs r h).trans (List.suffix_cons x xs)
    · rw [if_neg hx] at h
      cases h

/-- The greedy-star backtracking driver preserves suffix soundness. -/
theorem tryShrink_sound (k : List Char → Option (List Char)) (hk : KSuffixSound k)
    (s : List Char) : ∀ n r, tryShrink k s n = some r → r <:+ s := by
  intro n
  induction n with
  | zero => intro r h; exact hk s r h
  | succ m ih =>
    intro r h
    simp only [tryShrink] at h
    rcases ho : k (s.drop (m + 1)) with _ | v
    · rw [ho] at h
      simp only [Option.orElse, Option.none_bind] at h
      exact ih r h
    · rw [ho] at h
      simp only [Option.orElse] at h
      cases h
      exact (hk _ _ ho).trans (List.drop_suffix _ _)

/-- Greedy class stars preserve suffix soundness. -/
theorem starG_sound (p : Char → Bool) (k : List Char → Option (List Char))
    (hk : KSuffixSound k) : KSuffixSound (starG p k) := by
  intro s r h
  exact tryShrink_sound k hk s _ r h

/-- Greedy class pluses preserve suffix soundness. -/
theorem plusG_sound (p : Char → Bool) (k : List Char → Option (List Char))
    (hk : KSuffixSound k) : KSuffixSound (plusG p k) := by
  intro s r h
  cases s with
  | nil => simp [plusG] at h
  | cons x xs =>
    simp only [plusG] at h
    by_cases hx : p x
    · rw [if_pos hx] at h
      exact (starG_sound p k hk xs r h).trans (List.suffix_cons x xs)
    · rw [if_neg hx] at h
      cases h

/-- The lazy-star backtracking driver preserves suffix soundness. -/
theorem tryGrow_sound (k : List Char → Option (List Char)) (hk : KSuffixSound k) :
    ∀ n s r, tryGrow k s n = some r → r <:+ s := by
  intro n
  induction n with
  | zero =>
    intro s r h
    unfold tryGrow at h
    exact hk s r h
  | succ m ih =>
    intro s r h
    unfold tryGrow at h
    rcases ho : k s with _ | v
    · rw [ho] at h
      simp only [Option.orElse, Option.none_bind] at h
      cases s with
      | nil => cases h
      | cons x xs => exact (ih xs r h).trans (List.suffix_cons x xs)
    · rw [ho] at h
      simp only [Option.orElse] at h
      cases h
      exact hk s r ho

/-- The lazy any-star preserves suffix soundness. -/
theorem starLazyAny_sound (k : List Char → Option (List Char))
    (hk : KSuffixSound k) : KSuffixSound (starLazyAny k) := by
  intro s r h
  exact tryGrow_sound k hk s.length s r h

/-- A successful frontmatter match leaves a suffix of the document. -/
theorem frontmatterMatch_suffix (s r : List Char)
    (h : frontmatterMatch s = some r) : r <:+ s := by
  have k1 := plusG_sound crlfChar some someK_sound
  have k2 := starG_sound jsWs _ k1
  have k3 := litM_sound '-' _ k2
  have k4 := litM_sound '-' _ k3
  have k5 := litM_sound '-' _ k4
  have k6 := plusG_sound crlfChar _ k5
  have k7 := starLazyAny_sound _ k6
  have k8 := plusG_sound crlfChar _ k7
  have k9 := starG_sound jsWs _ k8
  have k10 := litM_sound '-' _ k9
  have k11 := litM_sound '-' _ k10
  have k12 := litM_sound '-' _ k11
  exact k12 s r h

/-- The processed text is the original document with its first
`frontmatterLength` characters dropped, and that length never exceeds the
document length. -/
theorem removeFrontmatter_drop (text : List Char) :
    (removeFrontmatter text).1 = text.drop ((removeFrontmatter text).2)
      ∧ (removeFrontmatter text).2 ≤ text.length := by
  unfold removeFrontmatter
  rcases h : frontmatterMatch text with _ | rest
  · simp
  · have hs : rest <:+ text := frontmatterMatch_suffix text rest h
    have hlen : rest.length ≤ text.length := hs.length_le
    refine ⟨?_, by simp⟩
    simpa using List.suffix_iff_eq_drop.mp hs

/-- Shifting a chunk's reported offsets by the stripped frontmatter length. -/
def shiftChunk (L : Nat) (c : Chunk) : Chunk :=
  ⟨c.text, c.originalOffsetStart + L, c.originalOffsetEnd + L, c.contributingSegmentIds⟩

/-- The packing loop run with frontmatter length `L` produces exactly the
chunks of the run with length `0`, every reported offset shifted by `L`. -/
theorem assembleChunks_shift (L : Nat) :
    ∀ (sents : List SentenceWithOffset) (cur : List Char) (cs ce : Int),
      (cur.isEmpty = true ∨ (0 ≤ cs ∧ 0 ≤ ce)) →
      (cs = -1 ∨ 0 ≤ cs) → (ce = -1 ∨ 0 ≤ ce) →
      assembleChunks L sents cur (if cs = -1 then -1 else cs + L)
          (if ce = -1 then -1 else ce + L)
        = (assembleChunks 0 sents cur cs ce).map (shiftChunk L) := by
  intro sents
  induction sents with
  | nil =>
    intro cur cs ce hcur hcs hce
    simp only [assembleChunks]
    by_cases hemp : cur.isEmpty
    · simp [hemp]
    · rcases hcur with h | ⟨h1, h2⟩
      · exact absurd h hemp
      · rw [if_neg hemp, if_neg hemp]
        have hc1 : ¬ cs = -1 := by omega
        have hc2 : ¬ ce = -1 := by omega
        simp [shiftChunk, hc1, hc2]
  | cons sent rest ih =>
    intro cur cs ce hcur hcs hce
    simp only [assembleChunks]
    by_cases hover : MAX_CHUNK_SIZE < sent.text.length
    · rw [if_pos hover, if_pos hover, List.map_append]
      congr 1
      · by_cases hemp : cur.isEmpty
        · simp [hemp]
        · rcases hcur with h | ⟨h1, h2⟩
          · exact absurd h hemp
          · rw [if_neg hemp, if_neg hemp]
            have hc1 : ¬ cs = -1 := by omega
            have hc2 : ¬ ce = -1 := by omega
            simp [shiftChunk, hc1, hc2]
      · rw [List.map_cons]
        congr 1
        · simp only [shiftChunk]
          congr 1 <;> push_cast <;> ring
        · have h := ih [] (-1) (-1) (Or.inl rfl) (Or.inl rfl) (Or.inl rfl)
          simpa using h
    · rw [if_neg hover, if_neg hover]
      by_cases hfit :
          (cur ++ (if cur.isEmpty then [] else [' ']) ++ sent.text).length ≤ MAX_CHUNK_SIZE
      · rw [if_pos hfit, if_pos hfit]
        have hcs' : (if cs = -1 then ((0 : Nat) : Int) + sent.startOffset else cs) = -1
            ∨ 0 ≤ (if cs = -1 then ((0 : Nat) : Int) + sent.startOffset else cs) := by
          have := Int.ofNat_nonneg sent.startOffset
          rcases hcs with h | h <;> split_ifs <;> omega
        have hce' : (((0 : Nat) : Int) + sent.endOffset) = -1
            ∨ 0 ≤ (((0 : Nat) : Int) + sent.endOffset) := by
          have := Int.ofNat_nonneg sent.endOffset
          omega
        have h := ih (cur ++ (if cur.isEmpty then [] else [' ']) ++ sent.text)
          (if cs = -1 then ((0 : Nat) : Int) + sent.startOffset else cs)
          (((0 : Nat) : Int) + sent.endOffset)
          (Or.inr ⟨by
              have := Int.ofNat_nonneg sent.startOffset
              rcases hcs with h | h <;> split_ifs <;> omega,
            by
              have := Int.ofNat_nonneg sent.endOffset
              omega⟩)
          hcs' hce'
        convert h using 2
        · have h1 := Int.ofNat_nonneg sent.startOffset
          rcases hcs with h2 | h2 <;> split_ifs <;> push_cast <;> omega
        · have h1 := Int.ofNat_nonneg sent.endOffset
          split_ifs <;> push_cast <;> omega
      · rw [if_neg hfit, if_neg hfit, List.map_append]
        congr 1
        · by_cases hemp : cur.isEmpty
          · simp [hemp]
          · rcases hcur with h | ⟨h1, h2⟩
            · exact absurd h hemp
            · rw [if_neg hemp, if_neg hemp]
              have hc1 : ¬ cs = -1 := by omega
              have hc2 : ¬ ce = -1 := by omega
              simp [shiftChunk, hc1, hc2]
        · have h := ih sent.text (((0 : Nat) : Int) + sent.startOffset)
            (((0 : Nat) : Int) + sent.endOffset)
            (Or.inr ⟨by
                have := Int.ofNat_nonneg sent.startOffset
                omega,
              by
                have := Int.ofNat_nonneg sent.endOffset
                omega⟩)
            (Or.inr (by
              have := Int.ofNat_nonneg sent.startOffset
              omega))
            (Or.inr (by
              have := Int.ofNat_nonneg sent.endOffset
              omega))
          convert h using 2
          · have h1 := Int.ofNat_nonneg sent.startOffset
            split_ifs <;> push_cast <;> omega
          · have h1 := Int.ofNat_nonneg sent.endOffset
            split_ifs <;> push_cast <;> omega

/-- C2.  Stripping the frontmatter block of length `L` and adding `L` back
to every reported offset round-trips: the processed text is the original
with its first `L` characters dropped (so `L` never exceeds the document
length), every processed-text slice `[s, e)` equals the original-document
slice `[L + s, L + e)`, and the packing loop with frontmatter length `L`
reports exactly the offsets of the unshifted run shifted by `L`. -/
theorem frontmatter_offset_roundtrip (text : List Char) :
    ((removeFrontmatter text).1 = text.drop ((removeFrontmatter text).2)
      ∧ (removeFrontmatter text).2 ≤ text.length)
    ∧ (∀ s e : Nat,
        (((removeFrontmatter text).1).drop s).take (e - s)
          = (text.drop ((removeFrontmatter text).2 + s)).take (e - s))
    ∧ (∀ (sents : List SentenceWithOffset) (L : Nat),
        assembleChunks L sents [] (-1) (-1)
          = (assembleChunks 0 sents [] (-1) (-1)).map (shiftChunk L)) := by
  obtain ⟨h1, h2⟩ := removeFrontmatter_drop text
  refine ⟨⟨h1, h2⟩, ?_, ?_⟩
  · intro s e
    rw [h1, List.drop_drop]
  · intro sents L
    have h := assembleChunks_shift L sents [] (-1) (-1) (Or.inl rfl) (Or.inl rfl) (Or.inl rfl)
    simpa using h

/-- A 200-character sentence: `a.` followed by three spaces and 195 `x`s.
Its first split segment is the raw prefix of length five `a.␣␣␣`, whose
trimmed text `a.` has only two characters. -/
def c7sentence : List Char := 'a' :: '.' :: (List.replicate 3 ' ' ++ List.replicate 195 'x')

/-- C7 counterexample.  Subdividing `c7sentence` (which exceeds
`MAX_SENTENCE_CHARS`, so it is subdivided) emits the spans of lengths
`[2, 100, 95]`: a span that is not the final remainder has trimmed text
shorter than `MIN_SENTENCE_CHARS`, refuting the claim as stated. -/
theorem short_span_counterexample :
    MAX_SENTENCE_CHARS < c7sentence.length
    ∧ (splitSentenceByMaxLength c7sentence 0).map (fun sp => sp.text.length)
        = [2, 100, 95]
    ∧ ∃ sp ∈ (splitSentenceByMaxLength c7sentence 0).dropLast,
        sp.text.length < MIN_SENTENCE_CHARS := by
  refine ⟨by decide, by decide, ?_⟩
  decide

/-- C7 amended.  Each iteration of the sentence subdivision advances the
cursor by at least `MIN_SENTENCE_CHARS`, so every span except the final
remainder is cut from a raw (pre-trim) segment of at least
`MIN_SENTENCE_CHARS` characters; only the whitespace trimming of that
segment can make the recorded span text shorter. -/
theorem split_sentence_min_advance (sentenceText : List Char) (cursor : Nat)
    (h : cursor < sentenceText.length) :
    cursor + MIN_SENTENCE_CHARS ≤ nextSegmentEnd sentenceText cursor
    ∧ (nextSegmentEnd sentenceText cursor < sentenceText.length →
        MIN_SENTENCE_CHARS ≤
          ((sentenceText.drop cursor).take
            (nextSegmentEnd sentenceText cursor - cursor)).length) := by
  have hadv : cursor + MIN_SENTENCE_CHARS ≤ nextSegmentEnd sentenceText cursor :=
    le_max_right _ _
  refine ⟨hadv, fun hlt => ?_⟩
  rw [List.length_take, List.length_drop]
  omega

/-- Witness for `split_sentence_min_advance` at a concrete sentence and
cursor. -/
theorem split_sentence_min_advance_witness :
    0 + MIN_SENTENCE_CHARS ≤ nextSegmentEnd c7sentence 0
    ∧ (nextSegmentEnd c7sentence 0 < c7sentence.length →
        MIN_SENTENCE_CHARS ≤
          ((c7sentence.drop 0).take (nextSegmentEnd c7sentence 0 - 0)).length) :=
  split_sentence_min_advance c7sentence 0 (by decide)

/-- A splitter stub returning no sentence nodes. -/
def noSentenceSplit : Splitter := fun _ => []

/-- C10 counterexample.  The non-blank document `http://a` with file path
`t.md` yields no markdown chunks (the URL is blanked to whitespace), so
`chunkText` falls back to a title-only chunk: its text is the bare title
`t` with no `": "` separator and its recorded positions are the `-1`
sentinels, refuting the claim as stated for this non-blank document with a
file path. -/
theorem chunk_text_title_counterexample :
    trimL "http://a".toList ≠ []
    ∧ chunkMarkdownPure noSentenceSplit "http://a".toList = []
    ∧ chunkText noSentenceSplit "http://a".toList (some "t.md".toList)
        = [⟨"t".toList, "t.md".toList, -1, -1⟩]
    ∧ ¬ ∃ rest, ("t".toList : List Char) = 't' :: ':' :: ' ' :: rest := by
  refine ⟨by decide, by decide, by decide, ?_⟩
  rintro ⟨rest, h⟩
  simp at h

/-- Mapping a projection over an index-aware map collapses to a plain map
when the projection is insensitive to the index. -/
theorem mapIdx_map_shift {α β γ : Type} (g : Nat → α → β) (φ : β → γ) (ψ : α → γ)
    (hg : ∀ i a, φ (g i a) = ψ a) :
    ∀ l : List α, (List.mapIdx g l).map φ = l.map ψ := by
  intro l
  induction l generalizing g with
  | nil => simp
  | cons a as ih =>
    rw [List.mapIdx_cons]
    simp only [List.map_cons, hg]
    congr 1
    exact ih (fun i => g (i + 1)) (fun i a => hg (i + 1) a)

/-- C10 amended.  For every non-blank document whose markdown chunking
produces at least one chunk, chunked with a file path whose derived title
is nonempty, `chunkText` prepends the title and the separator `": "` to the
text of the first chunk only, and every chunk — including the first —
keeps the markdown chunk's recorded start and end positions; hence the
first chunk's text is the title, `": "`, and the original first chunk text
(so it is longer than the text at its recorded offsets by the prefix
length and can exceed `MAX_CHUNK_SIZE` by that amount). -/
theorem chunk_text_title_prefix (split : Splitter) (noteContent filePath : List Char)
    (hnb : trimL noteContent ≠ [])
    (htitle : extractTitleFromPath (some filePath) ≠ [])
    (hchunks : chunkMarkdownPure split noteContent ≠ []) :
    (chunkText split noteContent (some filePath)).map (fun ci => ci.chunk)
      = (extractTitleFromPath (some filePath) ++ ':' :: ' ' ::
          ((chunkMarkdownPure split noteContent).headI).text)
        :: ((chunkMarkdownPure split noteContent).tail.map (fun c => c.text))
    ∧ (chunkText split noteContent (some filePath)).map
        (fun ci => (ci.startPosition, ci.endPosition))
      = (chunkMarkdownPure split noteContent).map
          (fun c => (c.originalOffsetStart, c.originalOffsetEnd)) := by
  obtain ⟨c0, rest, hcs⟩ := List.exists_cons_of_ne_nil hchunks
  have hfne : (extractTitleFromPath (some filePath)).isEmpty = false := by
    simpa [List.isEmpty_iff] using htitle
  constructor
  · simp only [chunkText, if_neg hnb, hcs]
    rw [if_neg (by simp)]
    rw [List.mapIdx_cons]
    simp only [List.map_cons, List.headI, List.tail_cons]
    congr 1
    · simp [hfne]
    · exact mapIdx_map_shift _ _ _ (fun i c => by simp) rest
  · simp only [chunkText, if_neg hnb, hcs]
    rw [if_neg (by simp)]
    have h := mapIdx_map_shift
      (fun index chunk =>
        (⟨if index = 0 && !(extractTitleFromPath (some filePath)).isEmpty then
            extractTitleFromPath (some filePath) ++ ':' :: ' ' :: chunk.text
          else chunk.text,
          (some filePath : Option (List Char)).getD [],
          chunk.originalOffsetStart, chunk.originalOffsetEnd⟩ : ChunkInfo))
      (fun ci => (ci.startPosition, ci.endPosition))
      (fun c => (c.originalOffsetStart, c.originalOffsetEnd))
      (fun i c => rfl) (c0 :: rest)
    exact h

/-- Witness for `chunk_text_title_prefix` at a concrete document, splitter
output and path. -/
theorem chunk_text_title_prefix_witness :
    (chunkText oneSentenceSplit "Hello.".toList (some "t.md".toList)).map
        (fun ci => ci.chunk)
      = (extractTitleFromPath (some "t.md".toList) ++ ':' :: ' ' ::
          ((chunkMarkdownPure oneSentenceSplit "Hello.".toList).headI).text)
        :: ((chunkMarkdownPure oneSentenceSplit "Hello.".toList).tail.map
            (fun c => c.text))
    ∧ (chunkText oneSentenceSplit "Hello.".toList (some "t.md".toList)).map
        (fun ci => (ci.startPosition, ci.endPosition))
      = (chunkMarkdownPure oneSentenceSplit "Hello.".toList).map
          (fun c => (c.originalOffsetStart, c.originalOffsetEnd)) :=
  chunk_text_title_prefix oneSentenceSplit "Hello.".toList "t.md".toList
    (by decide) (by decide) (by decide)


/-- The cache's per-chunk deep copy is the identity on chunk values. -/
theorem copyChunk_eq (c : Chunk) : copyChunk c = c := rfl

/-- Deep-copying a chunk list is the identity on values. -/
theorem map_copyChunk (l : List Chunk) : l.map copyChunk = l := by
  have h : copyChunk = id := funext fun c => rfl
  rw [h, List.map_id]

/-- A successful cache lookup is a member with the looked-up key. -/
theorem cacheGet_mem (key : List Char) (m : ChunkCache) (e : CacheEntry)
    (h : cacheGet key m = some e) : (key, e) ∈ m := by
  simp only [cacheGet, Option.map_eq_some'] at h
  obtain ⟨p, hp, he⟩ := h
  have hmem := List.mem_of_find?_eq_some hp
  have hkey := List.find?_some hp
  simp only [decide_eq_true_eq] at hkey
  subst he
  cases p
  simp_all

/-- Members of a `Map.set` result: the fresh pair or an old member. -/
theorem mem_cacheSet (key : List Char) (v : CacheEntry) (m : ChunkCache)
    (p : List Char × CacheEntry) (h : p ∈ cacheSet key v m) :
    p = (key, v) ∨ p ∈ m := by
  simp only [cacheSet] at h
  split_ifs at h
  · rw [List.mem_map] at h
    obtain ⟨q, hq, he⟩ := h
    by_cases hqk : q.1 = key
    · rw [if_pos hqk] at he
      exact Or.inl he.symm
    · rw [if_neg hqk] at he
      exact Or.inr (he ▸ hq)
  · rw [List.mem_append] at h
    rcases h with h | h
    · exact Or.inr h
    · simp only [List.mem_singleton] at h
      exact Or.inl h

/-- Folding key deletions only removes entries. -/
theorem foldl_deleteKey_sublist (ks : List (List Char)) :
    ∀ m : ChunkCache, (ks.foldl cacheDeleteKey m).Sublist m := by
  induction ks with
  | nil => intro m; exact List.Sublist.refl m
  | cons k ks ih =>
    intro m
    exact (ih (cacheDeleteKey m k)).trans (List.eraseP_sublist m)

/-- The expiry phase of the cleanup only removes entries. -/
theorem cleanupExpired_sublist (now : Nat) (m : ChunkCache) :
    (cleanupExpired now m).Sublist m :=
  foldl_deleteKey_sublist _ m

/-- The size phase of the cleanup only removes entries. -/
theorem cleanupBySize_sublist (m : ChunkCache) : (cleanupBySize m).Sublist m := by
  unfold cleanupBySize
  split_ifs
  · exact foldl_deleteKey_sublist _ m
  · exact List.Sublist.refl m

/-- The cleanup only removes entries. -/
theorem cleanupCache_sublist (now : Nat) (m : ChunkCache) :
    (cleanupCache now m).Sublist m :=
  (cleanupBySize_sublist _).trans (cleanupExpired_sublist now m)

/-- Key uniqueness of a cache state (what any state reachable through
`Map.set` satisfies). -/
def KeysNodup (m : ChunkCache) : Prop := (m.map Prod.fst).Nodup

/-- Key uniqueness at a cons cell. -/
theorem keysNodup_cons (a : List Char × CacheEntry) (l : ChunkCache) :
    KeysNodup (a :: l) ↔ a.1 ∉ l.map Prod.fst ∧ KeysNodup l := by
  unfold KeysNodup
  rw [List.map_cons, List.nodup_cons]

/-- Key uniqueness restricts to sub-caches. -/
theorem KeysNodup_of_sublist {m m' : ChunkCache} (h : m'.Sublist m)
    (hnd : KeysNodup m) : KeysNodup m' :=
  List.Nodup.sublist (h.map Prod.fst) hnd

/-- The `Map.set` model preserves key uniqueness. -/
theorem KeysNodup_cacheSet (key : List Char) (v : CacheEntry) (m : ChunkCache)
    (hnd : KeysNodup m) : KeysNodup (cacheSet key v m) := by
  unfold cacheSet
  split_ifs with hany
  · have hkeys : (m.map (fun p => if p.1 = key then (key, v) else p)).map Prod.fst
        = m.map Prod.fst := by
      rw [List.map_map]
      apply List.map_congr_left
      intro p _
      by_cases hp : p.1 = key
      · simp [hp]
      · simp [hp]
    unfold KeysNodup
    rw [hkeys]
    exact hnd
  · have hnk : key ∉ m.map Prod.fst := by
      intro hk
      rw [List.mem_map] at hk
      obtain ⟨p, hp, he⟩ := hk
      apply hany
      rw [List.any_eq_true]
      refine ⟨p, hp, ?_⟩
      rw [he]
      simp
    unfold KeysNodup
    rw [List.map_append, List.nodup_append]
    refine ⟨hnd, by simp, ?_⟩
    intro a ha hb
    simp only [List.map_cons, List.map_nil, List.mem_singleton] at hb
    rw [hb] at ha
    exact hnk ha

/-- With unique keys, two members sharing a key are the same entry. -/
theorem eq_of_mem_keys :
    ∀ (m : ChunkCache), KeysNodup m →
      ∀ p q, p ∈ m → q ∈ m → p.1 = q.1 → p = q := by
  intro m
  induction m with
  | nil => intro _ p q hp; simp at hp
  | cons a l ih =>
    intro hnd p q hp hq hk
    obtain ⟨hna, hndl⟩ := (keysNodup_cons a l).mp hnd
    rcases List.mem_cons.mp hp with hpa | hpl <;>
      rcases List.mem_cons.mp hq with hqa | hql
    · rw [hpa, hqa]
    · exact absurd (List.mem_map.mpr ⟨q, hql, by rw [← hk, hpa]⟩) hna
    · exact absurd (List.mem_map.mpr ⟨p, hpl, by rw [hk, hqa]⟩) hna
    · exact ih hndl p q hpl hql hk

/-- With unique keys, deleting a key is filtering it out. -/
theorem cacheDeleteKey_eq_filter :
    ∀ (m : ChunkCache), KeysNodup m →
      ∀ key, cacheDeleteKey m key = m.filter (fun p => ¬ p.1 = key) := by
  intro m
  induction m with
  | nil => intro _ key; rfl
  | cons a l ih =>
    intro hnd key
    obtain ⟨hna, hndl⟩ := (keysNodup_cons a l).mp hnd
    unfold cacheDeleteKey
    rw [List.eraseP_cons, List.filter_cons]
    by_cases hak : a.1 = key
    · have h1 : (decide (a.1 = key)) = true := by simp [hak]
      have h2 : (decide ¬ a.1 = key) = false := by simp [hak]
      rw [h1, h2]
      simp only [cond_true, Bool.false_eq_true, if_false]
      symm
      rw [List.filter_eq_self]
      intro p hp
      simp only [decide_eq_true_eq]
      intro hpk
      exact hna (List.mem_map.mpr ⟨p, hp, by rw [hpk, hak]⟩)
    · have h1 : (decide (a.1 = key)) = false := by simp [hak]
      have h2 : (decide ¬ a.1 = key) = true := by simp [hak]
      rw [h1, h2]
      simp only [cond_false, if_true]
      rw [← ih hndl key]
      rfl

/-- With unique keys, folding key deletions is filtering the key set out. -/
theorem foldl_deleteKey_eq_filter :
    ∀ (ks : List (List Char)) (m : ChunkCache), KeysNodup m →
      ks.foldl cacheDeleteKey m = m.filter (fun p => ¬ p.1 ∈ ks) := by
  intro ks
  induction ks with
  | nil => intro m _; simp
  | cons k ks ih =>
    intro m hnd
    rw [List.foldl_cons, cacheDeleteKey_eq_filter m hnd k]
    have hnd2 : KeysNodup (m.filter (fun p => ¬ p.1 = k)) :=
      KeysNodup_of_sublist (List.filter_sublist m) hnd
    rw [ih _ hnd2, List.filter_filter]
    apply List.filter_congr
    intro p _
    by_cases h1 : p.1 = k <;> by_cases h2 : p.1 ∈ ks <;>
      simp [h1, h2, List.mem_cons]

/-- The memoization invariant of the chunk cache: every stored entry holds
exactly the chunks the assembler computes from any text digesting to its
key (spec: a cache hit must be value-equal to what the assembler would
produce from the same text). -/
def CacheGood (split : Splitter) (computeHash : List Char → List Char)
    (cache : ChunkCache) : Prop :=
  ∀ p ∈ cache, ∀ T : List Char, computeHash T = p.1 →
    p.2.chunks = chunkMarkdownPure split T

/-- When no fresh entry is cached under the content digest, `chunkMarkdown`
takes its miss path. -/
theorem chunkMarkdown_miss_eq (split : Splitter) (computeHash : List Char → List Char)
    (noteContent : List Char) (now : Nat) (cache : ChunkCache)
    (hmiss : ∀ e, cacheGet (computeHash noteContent) cache = some e →
      CACHE_TTL_MS < now - e.timestamp) :
    chunkMarkdown split computeHash noteContent now cache
      = chunkMarkdownMiss split (computeHash noteContent) noteContent now cache := by
  simp only [chunkMarkdown]
  rcases h : cacheGet (computeHash noteContent) cache with _ | e
  · rfl
  · have hexp := hmiss e h
    show (if now - e.timestamp ≤ CACHE_TTL_MS
        then (e.chunks.map copyChunk, cache)
        else chunkMarkdownMiss split (computeHash noteContent) noteContent now cache)
      = chunkMarkdownMiss split (computeHash noteContent) noteContent now cache
    rw [if_neg (by omega)]

/-- The miss path returns the freshly assembled chunks and preserves the
memoization invariant (for an injective digest). -/
theorem chunkMarkdownMiss_good (split : Splitter) (computeHash : List Char → List Char)
    (hinj : Function.Injective computeHash) (cache : ChunkCache)
    (hgood : CacheGood split computeHash cache) (noteContent : List Char) (now : Nat) :
    (chunkMarkdownMiss split (computeHash noteContent) noteContent now cache).1
      = chunkMarkdownPure split noteContent
    ∧ CacheGood split computeHash
        (chunkMarkdownMiss split (computeHash noteContent) noteContent now cache).2 := by
  simp only [chunkMarkdownMiss]
  by_cases hb : trimL (removeUrls (removeFrontmatter noteContent).1) = []
  · rw [if_pos hb]
    exact ⟨by simp [chunkMarkdownPure, hb], hgood⟩
  · rw [if_neg hb]
    constructor
    · simp [chunkMarkdownPure, hb]
    · intro p hp T hT
      have hp' := (cleanupCache_sublist now _).subset hp
      rcases mem_cacheSet _ _ _ _ hp' with he | hm
      · have hkey : computeHash T = computeHash noteContent := by
          rw [hT, he]
        have hTeq : T = noteContent := hinj hkey
        rw [he]
        simp only [map_copyChunk]
        rw [hTeq]
        simp [chunkMarkdownPure, hb]
      · exact hgood p hm T hT

/-- Under the memoization invariant, `chunkMarkdown` always returns the
freshly assembled value — on a hit because the stored entry is value-equal
to the fresh computation, on a miss by computing it — and the invariant is
preserved. -/
theorem chunkMarkdown_good (split : Splitter) (computeHash : List Char → List Char)
    (hinj : Function.Injective computeHash) (cache : ChunkCache)
    (hgood : CacheGood split computeHash cache) (noteContent : List Char) (now : Nat) :
    (chunkMarkdown split computeHash noteContent now cache).1
      = chunkMarkdownPure split noteContent
    ∧ CacheGood split computeHash
        (chunkMarkdown split computeHash noteContent now cache).2 := by
  simp only [chunkMarkdown]
  rcases h : cacheGet (computeHash noteContent) cache with _ | e
  · exact chunkMarkdownMiss_good split computeHash hinj cache hgood noteContent now
  · show ((if now - e.timestamp ≤ CACHE_TTL_MS
        then (e.chunks.map copyChunk, cache)
        else chunkMarkdownMiss split (computeHash noteContent) noteContent now cache)).1
        = chunkMarkdownPure split noteContent
      ∧ CacheGood split computeHash
          ((if now - e.timestamp ≤ CACHE_TTL_MS
            then (e.chunks.map copyChunk, cache)
            else chunkMarkdownMiss split (computeHash noteContent) noteContent now cache)).2
    by_cases hexp : now - e.timestamp ≤ CACHE_TTL_MS
    · rw [if_pos hexp]
      have hmem := cacheGet_mem _ _ _ h
      have hval := hgood _ hmem noteContent rfl
      exact ⟨by simpa [map_copyChunk] using hval, hgood⟩
    · rw [if_neg hexp]
      exact chunkMarkdownMiss_good split computeHash hinj cache hgood noteContent now

/-- C3.  With an injective content digest and a cache satisfying the
memoization invariant, two `chunkMarkdown` calls on the identical text, the
second within the time-to-live window of the first, return value-equal
chunk lists, and each call — hit or miss — returns exactly what the
assembler freshly computes from that text. -/
theorem chunk_cache_idempotent (split : Splitter) (computeHash : List Char → List Char)
    (hinj : Function.Injective computeHash) (cache : ChunkCache)
    (hgood : CacheGood split computeHash cache) (noteContent : List Char)
    (now₁ now₂ : Nat) (hwin : now₂ - now₁ ≤ CACHE_TTL_MS) :
    (chunkMarkdown split computeHash noteContent now₂
        (chunkMarkdown split computeHash noteContent now₁ cache).2).1
      = (chunkMarkdown split computeHash noteContent now₁ cache).1
    ∧ (chunkMarkdown split computeHash noteContent now₁ cache).1
        = chunkMarkdownPure split noteContent := by
  obtain ⟨h1, hg1⟩ := chunkMarkdown_good split computeHash hinj cache hgood noteContent now₁
  obtain ⟨h2, _⟩ := chunkMarkdown_good split computeHash hinj _ hg1 noteContent now₂
  exact ⟨h2.trans h1.symm, h1⟩

/-- Witness for `chunk_cache_idempotent` at a concrete splitter, the
identity digest, and the empty cache. -/
theorem chunk_cache_idempotent_witness :
    (chunkMarkdown oneSentenceSplit id "Hello.".toList 1
        (chunkMarkdown oneSentenceSplit id "Hello.".toList 0 []).2).1
      = (chunkMarkdown oneSentenceSplit id "Hello.".toList 0 []).1
    ∧ (chunkMarkdown oneSentenceSplit id "Hello.".toList 0 []).1
        = chunkMarkdownPure oneSentenceSplit "Hello.".toList :=
  chunk_cache_idempotent oneSentenceSplit id Function.injective_id []
    (by intro p hp; simp at hp) "Hello.".toList 0 1 (by decide)

/-- With unique keys, the expiry phase removes exactly the entries older
than the time-to-live. -/
theorem cleanupExpired_eq_filter (now : Nat) (m : ChunkCache) (hnd : KeysNodup m) :
    cleanupExpired now m
      = m.filter (fun p => ¬ CACHE_TTL_MS < now - p.2.timestamp) := by
  unfold cleanupExpired
  rw [foldl_deleteKey_eq_filter _ _ hnd]
  apply List.filter_congr
  intro p hp
  by_cases hexp : CACHE_TTL_MS < now - p.2.timestamp
  · have hks : p.1 ∈ (m.filter
        (fun q => CACHE_TTL_MS < now - q.2.timestamp)).map Prod.fst :=
      List.mem_map.mpr ⟨p, List.mem_filter.mpr ⟨hp, by simpa using hexp⟩, rfl⟩
    simp [hks, hexp]
  · have hnk : p.1 ∉ (m.filter
        (fun q => CACHE_TTL_MS < now - q.2.timestamp)).map Prod.fst := by
      intro hk
      rw [List.mem_map] at hk
      obtain ⟨q, hq, hqk⟩ := hk
      obtain ⟨hqm, hqe⟩ := List.mem_filter.mp hq
      have hqp : q = p := eq_of_mem_keys m hnd q p hqm hp hqk
      rw [hqp] at hqe
      simp only [decide_eq_true_eq] at hqe
      exact hexp hqe
    simp [hnk, hexp]

/-- In the over-capacity case, the size phase evicts exactly the
`size - MAX_CACHE_SIZE` oldest-timestamp entries: the result has exactly
`MAX_CACHE_SIZE` entries and every evicted entry's timestamp is at most
every surviving entry's timestamp. -/
theorem cleanupBySize_core (m : ChunkCache) (hnd : KeysNodup m)
    (hgt : MAX_CACHE_SIZE < m.length) :
    (cleanupBySize m).length = MAX_CACHE_SIZE
    ∧ ∀ p ∈ cleanupBySize m, ∀ q ∈ m, q ∉ cleanupBySize m →
        q.2.timestamp ≤ p.2.timestamp := by
  have htrans : ∀ a b c : List Char × CacheEntry,
      (fun a b : List Char × CacheEntry =>
        decide (a.2.timestamp ≤ b.2.timestamp)) a b = true →
      (fun a b : List Char × CacheEntry =>
        decide (a.2.timestamp ≤ b.2.timestamp)) b c = true →
      (fun a b : List Char × CacheEntry =>
        decide (a.2.timestamp ≤ b.2.timestamp)) a c = true := by
    intro a b c hab hbc
    simp only [decide_eq_true_eq] at hab hbc ⊢
    omega
  have htotal : ∀ a b : List Char × CacheEntry,
      ((fun a b : List Char × CacheEntry =>
        decide (a.2.timestamp ≤ b.2.timestamp)) a b
      || (fun a b : List Char × CacheEntry =>
        decide (a.2.timestamp ≤ b.2.timestamp)) b a) = true := by
    intro a b
    rcases Nat.le_total a.2.timestamp b.2.timestamp with h | h <;> simp [h]
  have hperm := List.mergeSort_perm m
    (fun a b : List Char × CacheEntry => decide (a.2.timestamp ≤ b.2.timestamp))
  have hsort := List.sorted_mergeSort htrans htotal m
  set sorted := m.mergeSort
    (fun a b : List Char × CacheEntry => decide (a.2.timestamp ≤ b.2.timestamp))
    with hsortedDef
  set n := m.length - MAX_CACHE_SIZE with hn
  have hndS : KeysNodup sorted := by
    unfold KeysNodup
    exact ((hperm.map Prod.fst).nodup_iff).mpr hnd
  have htd : sorted = sorted.take n ++ sorted.drop n := (List.take_append_drop n sorted).symm
  have hkeysSplit : (sorted.map Prod.fst)
      = (sorted.take n).map Prod.fst ++ (sorted.drop n).map Prod.fst := by
    conv_lhs => rw [htd]
    rw [List.map_append]
  have hdisj : ∀ k, k ∈ (sorted.take n).map Prod.fst →
      k ∈ (sorted.drop n).map Prod.fst → False := by
    have hndK : ((sorted.take n).map Prod.fst ++ (sorted.drop n).map Prod.fst).Nodup := by
      rw [← hkeysSplit]
      exact hndS
    rw [List.nodup_append] at hndK
    exact fun k hk1 hk2 => hndK.2.2 hk1 hk2
  have hresult : cleanupBySize m
      = m.filter (fun p => ¬ p.1 ∈ (sorted.take n).map Prod.fst) := by
    unfold cleanupBySize
    rw [if_pos hgt]
    rw [foldl_deleteKey_eq_filter _ _ hnd]
  have hfilter_gen : ∀ pr : (List Char × CacheEntry) → Bool,
      (∀ q ∈ sorted.take n, pr q = false) →
      (∀ q ∈ sorted.drop n, pr q = true) →
      sorted.filter pr = sorted.drop n := by
    intro pr hf ht
    conv_lhs => rw [htd]
    rw [List.filter_append, List.filter_eq_nil_iff.mpr (by
        intro q hq
        simp [hf q hq]),
      List.filter_eq_self.mpr ht, List.nil_append]
  have hfilter_sorted : sorted.filter (fun p => ¬ p.1 ∈ (sorted.take n).map Prod.fst)
      = sorted.drop n := by
    apply hfilter_gen
    · intro q hq
      have hk : q.1 ∈ (sorted.take n).map Prod.fst := List.mem_map.mpr ⟨q, hq, rfl⟩
      simp only [decide_eq_false_iff_not, Decidable.not_not]
      exact hk
    · intro q hq
      simp only [decide_eq_true_eq]
      exact fun hk => hdisj q.1 hk (List.mem_map.mpr ⟨q, hq, rfl⟩)
  have hlenEq : (cleanupBySize m).length = MAX_CACHE_SIZE := by
    rw [hresult]
    have hpf := (hperm.filter (fun p => ¬ p.1 ∈ (sorted.take n).map Prod.fst)).length_eq
    rw [← hpf, hfilter_sorted, List.length_drop]
    have := hperm.length_eq
    omega
  refine ⟨hlenEq, ?_⟩
  intro p hp q hq hqout
  have hpm : p ∈ m := (cleanupBySize_sublist m).subset hp
  have hpfilter : p ∈ m.filter (fun r => ¬ r.1 ∈ (sorted.take n).map Prod.fst) := by
    rw [← hresult]; exact hp
  have hppred : ¬ p.1 ∈ (sorted.take n).map Prod.fst := by
    have := (List.mem_filter.mp hpfilter).2
    simpa using this
  have hqpred : q.1 ∈ (sorted.take n).map Prod.fst := by
    by_contra hqk
    apply hqout
    rw [hresult]
    exact List.mem_filter.mpr ⟨hq, by simpa using hqk⟩
  -- q is (key-uniquely) one of the evicted prefix of the sorted order
  obtain ⟨q', hq', hq'k⟩ := List.mem_map.mp hqpred
  have hq's : q' ∈ sorted := (List.take_sublist n sorted).subset hq'
  have hqs : q ∈ sorted := hperm.mem_iff.mpr hq
  have hq'q : q' = q := eq_of_mem_keys sorted hndS q' q hq's hqs hq'k
  -- p is in the surviving suffix of the sorted order
  have hps : p ∈ sorted := hperm.mem_iff.mpr hpm
  have hpdrop : p ∈ sorted.drop n := by
    rcases List.mem_append.mp (htd ▸ hps) with h | h
    · exact absurd (List.mem_map.mpr ⟨p, h, rfl⟩) hppred
    · exact h
  -- the stable sort is pairwise ordered by timestamp across the split
  have hsort' : List.Pairwise (fun a b : List Char × CacheEntry =>
      (decide (a.2.timestamp ≤ b.2.timestamp)) = true)
      (sorted.take n ++ sorted.drop n) := by
    rw [← htd]
    exact hsort
  have hcross := (List.pairwise_append.mp hsort').2.2
  have := hcross q' hq' p hpdrop
  rw [hq'q] at this
  simpa using this

/-- With unique keys, the size phase leaves at most `MAX_CACHE_SIZE`
entries. -/
theorem cleanupBySize_length (m : ChunkCache) (hnd : KeysNodup m) :
    (cleanupBySize m).length ≤ MAX_CACHE_SIZE := by
  by_cases hgt : MAX_CACHE_SIZE < m.length
  · rw [(cleanupBySize_core m hnd hgt).1]
  · unfold cleanupBySize
    rw [if_neg hgt]
    omega

/-- With unique keys, the size phase only ever evicts entries whose
timestamp is at most that of every survivor. -/
theorem cleanupBySize_oldest (m : ChunkCache) (hnd : KeysNodup m) :
    ∀ p ∈ cleanupBySize m, ∀ q ∈ m, q ∉ cleanupBySize m →
      q.2.timestamp ≤ p.2.timestamp := by
  by_cases hgt : MAX_CACHE_SIZE < m.length
  · exact (cleanupBySize_core m hnd hgt).2
  · intro p hp q hq hqout
    unfold cleanupBySize at hqout
    rw [if_neg hgt] at hqout
    exact absurd hq hqout

/-- C4 counterexample.  A cache miss on the whitespace-only document of
three spaces refutes the claim as stated: `chunkMarkdown` returns zero
chunks at the early blank-text return (before `cache.set` and
`cleanupCache`), so the cache is left unchanged, no fresh entry is stored
under the content digest, and the post state differs from the
store-then-cleanup state the claim prescribes for every miss. -/
theorem chunk_cache_blank_miss_counterexample :
    cacheGet (id "   ".toList) ([] : ChunkCache) = none
    ∧ chunkMarkdown noSentenceSplit id "   ".toList 0 [] = ([], [])
    ∧ cacheGet (id "   ".toList)
        (chunkMarkdown noSentenceSplit id "   ".toList 0 []).2 = none
    ∧ (chunkMarkdown noSentenceSplit id "   ".toList 0 []).2
        ≠ cleanupCache 0 (cacheSet (id "   ".toList)
            ⟨(chunkMarkdownPure noSentenceSplit "   ".toList).map copyChunk, 0⟩ []) := by
  refine ⟨by decide, by decide, by decide, by decide⟩

/-- C4 amended.  On a cache miss (or expired hit): when the preprocessed
text is blank, `chunkMarkdown` returns zero chunks and leaves the cache
unchanged (nothing is stored and no cleanup runs); otherwise it computes
the chunks via the assembler and its new state is exactly "store a fresh
deep-copied entry under the content digest with the current timestamp,
then clean up": afterwards every surviving entry is within the
time-to-live of `now`, the cache holds at most `MAX_CACHE_SIZE` entries,
and every entry removed by the size-bound eviction has a timestamp at most
that of every surviving entry (oldest evicted first). -/
theorem chunk_cache_miss_cleanup (split : Splitter) (computeHash : List Char → List Char)
    (noteContent : List Char) (now : Nat) (cache : ChunkCache)
    (hnd : KeysNodup cache)
    (hmiss : ∀ e, cacheGet (computeHash noteContent) cache = some e →
      CACHE_TTL_MS < now - e.timestamp) :
    (trimL (removeUrls (removeFrontmatter noteContent).1) = [] →
      chunkMarkdown split computeHash noteContent now cache = ([], cache))
    ∧ (trimL (removeUrls (removeFrontmatter noteContent).1) ≠ [] →
      chunkMarkdown split computeHash noteContent now cache
        = (chunkMarkdownPure split noteContent,
            cleanupCache now (cacheSet (computeHash noteContent)
              ⟨(chunkMarkdownPure split noteContent).map copyChunk, now⟩ cache))
      ∧ (∀ p ∈ (chunkMarkdown split computeHash noteContent now cache).2,
          now - p.2.timestamp ≤ CACHE_TTL_MS)
      ∧ (chunkMarkdown split computeHash noteContent now cache).2.length ≤ MAX_CACHE_SIZE
      ∧ (∀ p ∈ (chunkMarkdown split computeHash noteContent now cache).2,
          ∀ q ∈ cleanupExpired now (cacheSet (computeHash noteContent)
              ⟨(chunkMarkdownPure split noteContent).map copyChunk, now⟩ cache),
            q ∉ (chunkMarkdown split computeHash noteContent now cache).2 →
              q.2.timestamp ≤ p.2.timestamp)) := by
  constructor
  · intro hb
    rw [chunkMarkdown_miss_eq split computeHash noteContent now cache hmiss]
    simp only [chunkMarkdownMiss]
    rw [if_pos hb]
  intro hnonblank
  have hpure : chunkMarkdownPure split noteContent
      = assembleChunks (removeFrontmatter noteContent).2
          (splitIntoSentences
            (split (removeUrls (removeFrontmatter noteContent).1))
            (removeUrls (removeFrontmatter noteContent).1)) [] (-1) (-1) := by
    simp only [chunkMarkdownPure]
    rw [if_neg hnonblank]
  have heq : chunkMarkdown split computeHash noteContent now cache
      = (chunkMarkdownPure split noteContent,
          cleanupCache now (cacheSet (computeHash noteContent)
            ⟨(chunkMarkdownPure split noteContent).map copyChunk, now⟩ cache)) := by
    rw [chunkMarkdown_miss_eq split computeHash noteContent now cache hmiss]
    simp only [chunkMarkdownMiss]
    rw [if_neg hnonblank, ← hpure]
  have hset : KeysNodup (cacheSet (computeHash noteContent)
      ⟨(chunkMarkdownPure split noteContent).map copyChunk, now⟩ cache) :=
    KeysNodup_cacheSet _ _ _ hnd
  have hX : KeysNodup (cleanupExpired now (cacheSet (computeHash noteContent)
      ⟨(chunkMarkdownPure split noteContent).map copyChunk, now⟩ cache)) :=
    KeysNodup_of_sublist (cleanupExpired_sublist _ _) hset
  have hstate : (chunkMarkdown split computeHash noteContent now cache).2
      = cleanupBySize (cleanupExpired now (cacheSet (computeHash noteContent)
          ⟨(chunkMarkdownPure split noteContent).map copyChunk, now⟩ cache)) := by
    rw [heq]
    rfl
  refine ⟨heq, ?_, ?_, ?_⟩
  · intro p hp
    rw [hstate] at hp
    have hpX := (cleanupBySize_sublist _).subset hp
    rw [cleanupExpired_eq_filter _ _ hset] at hpX
    have := (List.mem_filter.mp hpX).2
    simp only [decide_eq_true_eq] at this
    omega
  · rw [hstate]
    exact cleanupBySize_length _ hX
  · intro p hp q hq hqout
    rw [hstate] at hp hqout
    exact cleanupBySize_oldest _ hX p hp q hq hqout

/-- Witness for `chunk_cache_miss_cleanup` at a concrete splitter, the
identity digest and the empty cache, exercising the non-blank branch. -/
theorem chunk_cache_miss_cleanup_witness :
    chunkMarkdown oneSentenceSplit id "Hello.".toList 0 []
      = (chunkMarkdownPure oneSentenceSplit "Hello.".toList,
          cleanupCache 0 (cacheSet (id "Hello.".toList)
            ⟨(chunkMarkdownPure oneSentenceSplit "Hello.".toList).map copyChunk, 0⟩ []))
    ∧ (∀ p ∈ (chunkMarkdown oneSentenceSplit id "Hello.".toList 0 []).2,
        0 - p.2.timestamp ≤ CACHE_TTL_MS)
    ∧ (chunkMarkdown oneSentenceSplit id "Hello.".toList 0 []).2.length ≤ MAX_CACHE_SIZE
    ∧ (∀ p ∈ (chunkMarkdown oneSentenceSplit id "Hello.".toList 0 []).2,
        ∀ q ∈ cleanupExpired 0 (cacheSet (id "Hello.".toList)
            ⟨(chunkMarkdownPure oneSentenceSplit "Hello.".toList).map copyChunk, 0⟩ []),
          q ∉ (chunkMarkdown oneSentenceSplit id "Hello.".toList 0 []).2 →
            q.2.timestamp ≤ p.2.timestamp) :=
  (chunk_cache_miss_cleanup oneSentenceSplit id "Hello.".toList 0 []
    (by simp [KeysNodup]) (by intro e he; simp [cacheGet] at he)).2 (by decide)
